import Mathlib

/-!
# Verification of the TwinCAT error-code scraper (`src/Scraper/scraper.py`)

Shallow embedding of the pure data-processing core of `ErrorCodeScraper`:
strings are embedded as `List Char` (`Str`), Python sequence indexing /
assignment (including negative indices and `IndexError`) as `pyGet` / `pySet`
returning `Option`, and the BeautifulSoup parse tree as plain record data
carrying exactly the fields the scraper reads (element text, inner markup, the
first `strong` element's stripped text, the stripped text nodes).

The embedded functions keep the source's names where Lean allows:
`format_identifier`, `get_page_title`, `get_page_links`, `extract_table_data`,
`process_error_codes`, `ErrorCode`.
-/

/-- Strings of the embedded program: Python `str` as a list of characters. -/
abbrev Str := List Char

/-- Python `seq[i]` with negative-index semantics; `none` models `IndexError`. -/
def pyGet {α : Type} (xs : List α) (i : Int) : Option α :=
  let j : Int := if i < 0 then i + (xs.length : Int) else i
  if 0 ≤ j then xs.get? j.toNat else none

/-- Python `seq[i] = v` on lists; `none` models `IndexError`. -/
def pySet {α : Type} (xs : List α) (i : Int) (v : α) : Option (List α) :=
  let j : Int := if i < 0 then i + (xs.length : Int) else i
  if 0 ≤ j ∧ j < (xs.length : Int) then some (xs.set j.toNat v) else none

/-- Python `str.strip()`: drop whitespace from both ends. -/
def pyStrip (s : Str) : Str :=
  ((s.dropWhile Char.isWhitespace).reverse.dropWhile Char.isWhitespace).reverse

/-- Python `sep.join(xs)`. -/
def pyJoin (sep : Str) : List Str → Str
  | [] => []
  | [x] => x
  | x :: xs => x ++ sep ++ pyJoin sep xs

/-- Python `s.split(sep)` for a single-character separator. -/
def pySplitChar (sep : Char) : Str → List Str
  | [] => [[]]
  | c :: rest =>
    let r := pySplitChar sep rest
    if c = sep then [] :: r
    else
      match r with
      | [] => [[c]]
      | h :: t => (c :: h) :: t

/-- Worker for `removeAll`; the fuel argument is only there to make the
recursion structural, `removeAll` supplies enough of it. -/
def removeAllAux : Nat → Str → Str → Str
  | 0, s, _ => s
  | fuel + 1, s, pat =>
    match s with
    | [] => []
    | c :: rest =>
      if pat.isPrefixOf (c :: rest) then removeAllAux fuel ((c :: rest).drop pat.length) pat
      else c :: removeAllAux fuel rest pat

/-- Python `s.replace(pat, "")`: delete every (leftmost, non-overlapping)
occurrence of `pat`; an empty pattern leaves the string unchanged. -/
def removeAll (s pat : Str) : Str :=
  if pat = [] then s else removeAllAux s.length s pat

/-- Decimal rendering of a natural number, as in Python `f"{n}"`.
The fuel argument of the worker makes the recursion structural. -/
def natToCharsAux : Nat → Nat → Str
  | 0, _ => []
  | _ + 1, 0 => []
  | fuel + 1, n + 1 =>
    natToCharsAux fuel ((n + 1) / 10) ++ [Nat.digitChar ((n + 1) % 10)]

/-- Decimal rendering of a natural number (`str(n)` in Python). -/
def natToChars (n : Nat) : Str :=
  if n = 0 then ['0'] else natToCharsAux n n

/-- `format_identifier` (scraper.py lines 284-301): uppercase, spaces to
underscores, keep only alphanumerics and underscores, then
`'_'.join(filter(None, formatted.split('_')))`. -/
def format_identifier (s : Str) : Str :=
  let formatted := (s.map Char.toUpper).map (fun c => if c = ' ' then '_' else c)
  let formatted2 := formatted.filter (fun c => c.isAlphanum || c == '_')
  pyJoin ['_'] ((pySplitChar '_' formatted2).filter (fun l => !l.isEmpty))

/-- `get_page_title` (lines 117-130); the input is the stripped text of the
page's `title` element when one exists. -/
def get_page_title (title : Option Str) : Str :=
  match title with
  | some t => format_identifier t
  | none => ("NC").toList

example : format_identifier (("Lag error: x").toList) = ("LAG_ERROR_X").toList := by decide
example : format_identifier [] = [] := by rfl
example : pyGet ['a', 'b'] (-1) = some 'b' := by decide
example : pyGet ['a', 'b'] (-3) = none := by decide
example : removeAll (("B A C").toList) (("A").toList) = ("B  C").toList := by decide
example : natToChars 12 = ['1', '2'] := by decide

/-- Final record (`ErrorCode` NamedTuple, lines 37-41). -/
structure ErrorCode where
  code : Str
  description : Str
  identifier : Str
deriving DecidableEq

/-- One accumulated entry `(page_title, row, symbol_column_index)` as gathered
by `run` (line 609). -/
abbrev RowData := Str × List Str × Int

/-- Index used by the fallback branch of the resolver (lines 323, 348):
`4 if symbol_column_index == -1 else len(row) - 1`. -/
def seedIdx (row : List Str) (sym : Int) : Int :=
  if sym = -1 then 4 else (row.length : Int) - 1

/-- The base identifier of one row (lines 317-324 / 343-349):
`page_title + "_" + format_identifier(seed)`, where the seed is the symbol
cell when a symbol column exists, is in range and strips non-empty, and the
fallback slot otherwise; `none` models an `IndexError` during the lookup. -/
def baseId (pt : Str) (row : List Str) (sym : Int) : Option Str :=
  if sym ≠ -1 ∧ sym < (row.length : Int) then
    match pyGet row sym with
    | none => none
    | some cell =>
      if pyStrip cell ≠ [] then some (pt ++ '_' :: format_identifier cell)
      else (pyGet row (seedIdx row sym)).map fun s => pt ++ '_' :: format_identifier s
  else (pyGet row (seedIdx row sym)).map fun s => pt ++ '_' :: format_identifier s

/-- Pass 1 of `process_error_codes` (lines 314-328): the base identifiers of
all rows whose lookup does not raise. -/
def allBaseIds (rows : List RowData) : List Str :=
  rows.filterMap fun r => baseId r.1 r.2.1 r.2.2

/-- The occurrence-count dictionary built in lines 331-333. -/
def countsOf (rows : List RowData) : Str → Nat :=
  fun b => (allBaseIds rows).count b

/-- Pointwise update of a counter dictionary (`identifier_counters[b] = v`). -/
def bump (m : Str → Nat) (b : Str) (v : Nat) : Str → Nat :=
  fun x => if x = b then v else m x

/-- Pass 2 of `process_error_codes` (lines 336-368).  `counts b = 0` is the
`KeyError` branch of `identifier_counts[base_id]` (row skipped); the
counter dictionary is updated before the `ErrorCode` row is built, so a row
whose `row[1]`/`row[3]` lookup raises still consumes a counter value. -/
def pass2 (counts : Str → Nat) : List RowData → (Str → Nat) → List ErrorCode
  | [], _ => []
  | r :: rest, m =>
    match baseId r.1 r.2.1 r.2.2 with
    | none => pass2 counts rest m
    | some b =>
      if counts b = 0 then pass2 counts rest m
      else
        let finalId := if 1 < counts b then b ++ '_' :: natToChars (m b + 1) else b
        let m2 := if 1 < counts b then bump m b (m b + 1) else m
        match pyGet r.2.1 1, pyGet r.2.1 3 with
        | some c, some d => ⟨c, d, finalId⟩ :: pass2 counts rest m2
        | _, _ => pass2 counts rest m2

/-- `process_error_codes` (lines 303-373). -/
def process_error_codes (rows : List RowData) : List ErrorCode :=
  pass2 (countsOf rows) rows (fun _ => 0)

/-- The identifiers of the final records, in output order. -/
def idsOf (rows : List RowData) : List Str :=
  (process_error_codes rows).map ErrorCode.identifier

example :
    idsOf [((("NC").toList), [[], ("1").toList, [], ("d").toList, ("FOO").toList], -1),
           ((("NC").toList), [[], ("2").toList, [], ("d").toList, ("FOO").toList], -1),
           ((("NC").toList), [[], ("3").toList, [], ("d").toList, ("FOO 1").toList], -1)] =
      [("NC_FOO_1").toList, ("NC_FOO_2").toList, ("NC_FOO_1").toList] := by decide

/-- A table cell as the scraper reads it through BeautifulSoup: `text` is
`get_text(strip=True)`, `inner` is `decode_contents()`, and `strong` /
`strings` are what re-parsing `inner` yields — the first `strong` element's
stripped text and the fragment's `stripped_strings`. -/
structure Cell where
  text : Str
  inner : Str
  strong : Option Str
  strings : List Str
deriving DecidableEq

/-- The literal placeholder of lines 263 and 276. -/
def UNKNOWN_IDENTIFIER : Str := ("UNKNOWN_IDENTIFIER").toList

/-- Description normalization (lines 245-259): use the bold phrase verbatim
when it strips equal to the whole fragment's joined stripped text, else join
the stripped strings that differ from it, delete remaining occurrences of it,
and strip. -/
def descText (dcell : Cell) : Str :=
  let strong_text := dcell.strong.getD []
  let all_text := pyJoin [' '] dcell.strings
  if strong_text ≠ [] ∧ pyStrip strong_text = pyStrip all_text then strong_text
  else
    pyStrip (removeAll
      (pyJoin [' '] (dcell.strings.filter (fun t => decide (t ≠ strong_text))))
      strong_text)

/-- The identifier seed stashed in the fifth slot when the page declared no
symbol column (line 263). -/
def seedSlot (dcell : Cell) : Str :=
  if dcell.strong.getD [] ≠ [] then dcell.strong.getD [] else UNKNOWN_IDENTIFIER

/-- The five-slot `std_row` right after lines 239-263: code at slot 1,
normalized description at slot 3, and — only when no symbol column was
declared — the seed at slot 4. -/
def stdRowFor (sym : Int) (error_code : Str) (dcell : Cell) : List Str :=
  let r1 : List Str := [[], error_code, [], descText dcell, []]
  if sym = -1 then r1.set 4 (seedSlot dcell) else r1

/-- Lines 266-277: when a symbol column was declared and is within the data
cells, copy its non-empty stripped text into `std_row` at the column's own
index.  `pySet` failing is the `IndexError` caught at line 272: since
`symbol_column_index != -1` there, the handler appends the row unchanged. -/
def symbolWrite (sym : Int) (tds : List Cell) (r2 : List Str) : List Str :=
  if sym ≠ -1 ∧ sym < (tds.length : Int) then
    match pyGet tds sym with
    | none => r2
    | some scell =>
      if scell.text ≠ [] then
        match pySet r2 sym scell.text with
        | some r3 => r3
        | none => r2
      else r2
  else r2

/-- Processing of one data row `tr` (lines 216-277): `none` means the row is
skipped (no cells, fewer than two cells, or empty code/description). -/
def processRow (sym : Int) (error_code_idx description_idx : Nat)
    (tds : List Cell) : Option (List Str) :=
  if tds = [] then none
  else if 2 ≤ tds.length then
    let error_code := ((tds.get? error_code_idx).map Cell.text).getD []
    match tds.get? description_idx with
    | none => none
    | some dcell =>
      if error_code ≠ [] ∧ dcell.inner ≠ [] then
        some (symbolWrite sym tds (stdRowFor sym error_code dcell))
      else none
  else none

/-- A `table` element: the stripped texts of all its `th` elements and its
`tr` rows, each given by its `td` cells. -/
structure Table where
  ths : List Str
  trs : List (List Cell)
deriving DecidableEq

/-- Lowercasing for the case-insensitive header matches. -/
def pyLower (s : Str) : Str := s.map Char.toLower

/-- The synonym set for the code column (line 195). -/
def codeLabelStrs : List Str :=
  [("error(dec)").toList, ("error code").toList, ("error").toList, ("code (dec)").toList]

/-- The synonym set for the description column (line 196). -/
def descLabelStrs : List Str := [("description").toList, ("text").toList]

def isCodeLabel (h : Str) : Bool := codeLabelStrs.contains (pyLower h)

def isDescLabel (h : Str) : Bool := descLabelStrs.contains (pyLower h)

/-- Index of the `symbol` header if any (lines 202-206 / 210-214). -/
def findSymbolIdx (headers : List Str) : Option Nat :=
  headers.findIdx? (fun h => pyLower h == ("symbol").toList)

/-- One iteration of the per-table loop (lines 182-277), threading
`(all_headers, all_rows, symbol_column_index)`. -/
def extractStep (acc : List Str × List (List Str) × Int) (it : Nat × Table) :
    List Str × List (List Str) × Int :=
  let headers := it.2.ths
  if headers = [] then acc
  else
    let error_code_idx := (headers.findIdx? isCodeLabel).getD 0
    let description_idx := (headers.findIdx? isDescLabel).getD 1
    let st :=
      if acc.1 = [] ∨ it.1 = 0 then
        (headers, match findSymbolIdx headers with
                  | some i => (i : Int)
                  | none => acc.2.2)
      else if headers ≠ acc.1 then
        (acc.1, match findSymbolIdx headers with
                | some i => (i : Int)
                | none => acc.2.2)
      else (acc.1, acc.2.2)
    let newRows := (it.2.trs.drop 1).filterMap (processRow st.2 error_code_idx description_idx)
    (st.1, acc.2.1 ++ newRows, st.2)

/-- `extract_table_data` (lines 159-281); `none` is the
`ValueError("No table found on the webpage")` raised at line 175. -/
def extract_table_data (tables : List Table) :
    Option (List Str × List (List Str) × Int) :=
  if tables = [] then none
  else some (tables.enum.foldl extractStep ([], [], -1))

/-- The tags the link scan cares about. -/
inductive Tag
  | h2 | h3 | h4 | divTag | ul | ol | other
deriving DecidableEq

/-- An `li` element: its first `a` child's `href`, when there is one. -/
structure LI where
  href : Option Str
deriving DecidableEq

/-- A node of the document in document order; `items` is meaningful for list
elements only. -/
structure Node where
  tag : Tag
  text : Str
  items : List LI
deriving DecidableEq

def furtherInfo : Str := ("Further Information").toList

def isHeadingTag (t : Tag) : Bool :=
  match t with
  | .h2 | .h3 | .h4 | .divTag => true
  | _ => false

def isListTag (t : Tag) : Bool :=
  match t with
  | .ul | .ol => true
  | _ => false

/-- Line 154-155: relative links are absolutized by concatenating the base. -/
def resolveHref (base href : Str) : Str :=
  if (("http").toList).isPrefixOf href then href else base ++ href

/-- Lines 149-156: the resolved link targets of one list element's items. -/
def linksFromList (base : Str) (n : Node) : List Str :=
  n.items.filterMap fun li => li.href.map (resolveHref base)

/-- `get_page_links` (lines 132-157): every `h2`/`h3`/`h4`/`div` whose text
contains "Further Information" contributes the items of the nearest following
list element. -/
def get_page_links (base : Str) : List Node → List Str
  | [] => []
  | n :: rest =>
    (if isHeadingTag n.tag ∧ furtherInfo <:+: n.text then
      match rest.find? (fun m => isListTag m.tag) with
      | some m => linksFromList base m
      | none => []
    else []) ++ get_page_links base rest

/-- Worker for `dedupKeys`; the fuel only makes the recursion structural. -/
def dedupKeysAux : Nat → List Str → List Str
  | 0, _ => []
  | _, [] => []
  | fuel + 1, x :: xs => x :: dedupKeysAux fuel (xs.filter (fun y => decide (y ≠ x)))

/-- `list(dict.fromkeys(links))` (line 586): drop duplicates, keeping the
first occurrence of each element. -/
def dedupKeys (xs : List Str) : List Str := dedupKeysAux xs.length xs

/-- The orchestrator's link selection (lines 576-587): fall back to the main
URL when the scan found nothing, else deduplicate preserving order. -/
def selectLinks (main_url base : Str) (doc : List Node) : List Str :=
  let links := get_page_links base doc
  if links = [] then [main_url] else dedupKeys links

/-- The four output artifacts written by `run` (lines 625-628). -/
inductive Artifact
  | csv | enumDef | descFn | convFn
deriving DecidableEq

/-- `write_to_csv` (lines 376-394): on an `IOError` it logs and re-raises.
The boolean oracle says which artifact's file write fails; the result records
that the write was attempted, `none` signalling the propagated exception. -/
def writeCsvAttempt (fails : Artifact → Bool) : List Artifact × Option Unit :=
  ([Artifact.csv], if fails Artifact.csv then none else some ())

/-- `write_enum_definition` (lines 396-443): catches its own `IOError` and
never re-raises, so the attempt always completes. -/
def writeEnumAttempt (_fails : Artifact → Bool) : List Artifact := [Artifact.enumDef]

/-- `write_description_function` (lines 445-504): same containment. -/
def writeDescAttempt (_fails : Artifact → Bool) : List Artifact := [Artifact.descFn]

/-- `write_converter_function` (lines 506-566): same containment. -/
def writeConvAttempt (_fails : Artifact → Bool) : List Artifact := [Artifact.convFn]

/-- The emission sequence of `run` (lines 624-637): the four writers run in
order inside one `try`; an exception escaping `write_to_csv` lands in the
outer `except` (line 636) and the remaining writers are never called. -/
def runWrites (fails : Artifact → Bool) : List Artifact :=
  match writeCsvAttempt fails with
  | (a1, none) => a1
  | (a1, some _) =>
      a1 ++ writeEnumAttempt fails ++ writeDescAttempt fails ++ writeConvAttempt fails

/-! ## Character-level facts about the ASCII case operations -/

theorem charToNat_ofNat {n : Nat} (h : n < 55296) : (Char.ofNat n).toNat = n := by
  unfold Char.ofNat
  have hv : n.isValidChar := Or.inl (by omega)
  rw [dif_pos hv]
  unfold Char.ofNatAux Char.toNat
  simp [UInt32.ofNat', UInt32.toNat, BitVec.toNat_ofNatLt]

theorem isLower_iff (c : Char) : c.isLower = true ↔ 97 ≤ c.toNat ∧ c.toNat ≤ 122 := by
  simp [Char.isLower, Char.toNat, UInt32.le_def, BitVec.le_def, UInt32.toNat]

theorem isUpper_iff (c : Char) : c.isUpper = true ↔ 65 ≤ c.toNat ∧ c.toNat ≤ 90 := by
  simp [Char.isUpper, Char.toNat, UInt32.le_def, BitVec.le_def, UInt32.toNat]

theorem isDigit_iff (c : Char) : c.isDigit = true ↔ 48 ≤ c.toNat ∧ c.toNat ≤ 57 := by
  simp [Char.isDigit, Char.toNat, UInt32.le_def, BitVec.le_def, UInt32.toNat]

theorem toUpper_not_lower (c : Char) : (Char.toUpper c).isLower = false := by
  unfold Char.toUpper
  by_cases h : c.toNat ≥ 97 ∧ c.toNat ≤ 122
  · rw [if_pos h]
    have hv : (Char.ofNat (c.toNat - 32)).toNat = c.toNat - 32 := charToNat_ofNat (by omega)
    rw [Bool.eq_false_iff]
    intro hl
    rw [isLower_iff, hv] at hl
    omega
  · rw [if_neg h]
    rw [Bool.eq_false_iff]
    intro hl
    rw [isLower_iff] at hl
    omega

theorem toUpper_eq_self_of_not_lower (c : Char) (h : c.isLower = false) :
    Char.toUpper c = c := by
  unfold Char.toUpper
  rw [if_neg]
  intro hc
  rw [Bool.eq_false_iff] at h
  exact h (isLower_iff c |>.mpr (by omega))

/-- The characters produced by `format_identifier`: uppercase ASCII letters,
digits, and the underscore. -/
def isIdentChar (c : Char) : Bool := c.isUpper || c.isDigit || c == '_'

theorem isIdentChar_not_lower (c : Char) (h : isIdentChar c = true) :
    c.isLower = false := by
  rcases Bool.or_eq_true_iff.mp h with h | hu
  · rcases Bool.or_eq_true_iff.mp h with h | h
    · rw [Bool.eq_false_iff]
      intro hl
      rw [isUpper_iff] at h
      rw [isLower_iff] at hl
      omega
    · rw [Bool.eq_false_iff]
      intro hl
      rw [isDigit_iff] at h
      rw [isLower_iff] at hl
      omega
  · have : c = '_' := by simpa using hu
    subst this
    decide

theorem isIdentChar_toUpper_fix (c : Char) (h : isIdentChar c = true) :
    Char.toUpper c = c :=
  toUpper_eq_self_of_not_lower c (isIdentChar_not_lower c h)

theorem isIdentChar_ne_space (c : Char) (h : isIdentChar c = true) : c ≠ ' ' := by
  intro hc
  subst hc
  exact absurd h (by decide)

theorem isIdentChar_keep (c : Char) (h : isIdentChar c = true) :
    (c.isAlphanum || c == '_') = true := by
  rcases Bool.or_eq_true_iff.mp h with h | hu
  · rcases Bool.or_eq_true_iff.mp h with h | h
    · simp [Char.isAlphanum, Char.isAlpha, h]
    · simp [Char.isAlphanum, h]
  · simp [hu]

theorem isIdentChar_of_kept (c : Char) (hk : (c.isAlphanum || c == '_') = true)
    (hl : c.isLower = false) : isIdentChar c = true := by
  rcases Bool.or_eq_true_iff.mp hk with h | hu
  · rcases Bool.or_eq_true_iff.mp h with h | h
    · rcases Bool.or_eq_true_iff.mp h with h | h
      · simp [isIdentChar, h]
      · rw [h] at hl
        exact absurd hl (by decide)
    · simp [isIdentChar, h]
  · simp [isIdentChar, hu]

/-! ## Facts about the embedded `split` and `join` -/

theorem pySplitChar_not_mem (sep : Char) :
    ∀ (s : Str), ∀ l ∈ pySplitChar sep s, sep ∉ l := by
  intro s
  induction s with
  | nil =>
    intro l hl
    simp [pySplitChar] at hl
    simp [hl]
  | cons c rest ih =>
    intro l hl
    simp only [pySplitChar] at hl
    by_cases hc : c = sep
    · rw [if_pos hc] at hl
      rcases List.mem_cons.mp hl with h | h
      · simp [h]
      · exact ih l h
    · rw [if_neg hc] at hl
      cases hr : pySplitChar sep rest with
      | nil =>
        rw [hr] at hl
        simp at hl
        subst hl
        simp
        exact fun h => hc (h.symm)
      | cons h t =>
        rw [hr] at hl
        rcases List.mem_cons.mp hl with h1 | h1
        · subst h1
          intro hmem
          rcases List.mem_cons.mp hmem with h2 | h2
          · exact hc h2.symm
          · exact ih h (by rw [hr]; exact List.mem_cons_self _ _) h2
        · exact ih l (by rw [hr]; exact List.mem_cons_of_mem _ h1)

theorem pySplitChar_mem_mem (sep : Char) :
    ∀ (s : Str), ∀ l ∈ pySplitChar sep s, ∀ c ∈ l, c ∈ s := by
  intro s
  induction s with
  | nil =>
    intro l hl
    simp [pySplitChar] at hl
    simp [hl]
  | cons a rest ih =>
    intro l hl c hc
    simp only [pySplitChar] at hl
    by_cases ha : a = sep
    · rw [if_pos ha] at hl
      rcases List.mem_cons.mp hl with h | h
      · subst h
        exact absurd hc (List.not_mem_nil c)
      · exact List.mem_cons_of_mem _ (ih l h c hc)
    · rw [if_neg ha] at hl
      cases hr : pySplitChar sep rest with
      | nil =>
        rw [hr] at hl
        simp at hl
        subst hl
        simp at hc
        simp [hc]
      | cons h t =>
        rw [hr] at hl
        rcases List.mem_cons.mp hl with h1 | h1
        · subst h1
          rcases List.mem_cons.mp hc with h2 | h2
          · simp [h2]
          · exact List.mem_cons_of_mem _
              (ih h (by rw [hr]; exact List.mem_cons_self _ _) c h2)
        · exact List.mem_cons_of_mem _
            (ih l (by rw [hr]; exact List.mem_cons_of_mem _ h1) c hc)

theorem pySplitChar_of_not_mem (sep : Char) :
    ∀ (l : Str), sep ∉ l → pySplitChar sep l = [l] := by
  intro l
  induction l with
  | nil => intro; rfl
  | cons c rest ih =>
    intro h
    have hc : ¬(c = sep) := fun hh => h (hh ▸ List.mem_cons_self _ _)
    have hrest : sep ∉ rest := fun hh => h (List.mem_cons_of_mem _ hh)
    simp only [pySplitChar, if_neg hc, ih hrest]

theorem pySplitChar_append (sep : Char) :
    ∀ (x z : Str), sep ∉ x →
      pySplitChar sep (x ++ sep :: z) = x :: pySplitChar sep z := by
  intro x
  induction x with
  | nil =>
    intro z _
    simp [pySplitChar]
  | cons c x' ih =>
    intro z h
    have hc : ¬(c = sep) := fun hh => h (hh ▸ List.mem_cons_self _ _)
    have hx' : sep ∉ x' := fun hh => h (List.mem_cons_of_mem _ hh)
    simp only [List.cons_append, pySplitChar, if_neg hc]
    rw [show List.append x' (sep :: z) = x' ++ sep :: z from rfl, ih z hx']

theorem pyJoin_ne_nil (sep : Str) (x : Str) (xs : List Str) (hx : x ≠ []) :
    pyJoin sep (x :: xs) ≠ [] := by
  cases xs with
  | nil => simpa [pyJoin]
  | cons y ys =>
    simp only [pyJoin]
    intro hcontra
    rcases List.append_eq_nil.mp hcontra with ⟨h1, _⟩
    rcases List.append_eq_nil.mp h1 with ⟨h2, _⟩
    exact hx h2

theorem pyJoin_mem (sep : Str) :
    ∀ (xs : List Str) (c : Char), c ∈ pyJoin sep xs → c ∈ sep ∨ ∃ x ∈ xs, c ∈ x := by
  intro xs
  induction xs with
  | nil =>
    intro c hc
    exact absurd hc (List.not_mem_nil c)
  | cons x xs ih =>
    intro c hc
    cases xs with
    | nil =>
      right
      exact ⟨x, List.mem_cons_self _ _, by simpa [pyJoin] using hc⟩
    | cons y ys =>
      simp only [pyJoin, List.append_assoc, List.mem_append] at hc
      rcases hc with h | h | h
      · exact Or.inr ⟨x, List.mem_cons_self _ _, h⟩
      · exact Or.inl h
      · rcases ih c h with h1 | ⟨w, hw, hcw⟩
        · exact Or.inl h1
        · exact Or.inr ⟨w, List.mem_cons_of_mem _ hw, hcw⟩

theorem pySplitChar_pyJoin (sep : Char) :
    ∀ (chunks : List Str), chunks ≠ [] → (∀ l ∈ chunks, sep ∉ l) →
      pySplitChar sep (pyJoin [sep] chunks) = chunks := by
  intro chunks
  induction chunks with
  | nil => intro h; exact absurd rfl h
  | cons x xs ih =>
    intro _ hsep
    cases xs with
    | nil =>
      simp only [pyJoin]
      exact pySplitChar_of_not_mem sep x (hsep x (List.mem_cons_self _ _))
    | cons y ys =>
      have hx : sep ∉ x := hsep x (List.mem_cons_self _ _)
      have hrec : ∀ l ∈ y :: ys, sep ∉ l :=
        fun l hl => hsep l (List.mem_cons_of_mem _ hl)
      calc pySplitChar sep (pyJoin [sep] (x :: y :: ys))
          = pySplitChar sep (x ++ sep :: pyJoin [sep] (y :: ys)) := by
            simp [pyJoin, List.append_assoc]
        _ = x :: pySplitChar sep (pyJoin [sep] (y :: ys)) :=
            pySplitChar_append sep x _ hx
        _ = x :: y :: ys := by rw [ih (by simp) hrec]

theorem pyJoin_head_ne (sepc : Char) (chunks : List Str)
    (h1 : ∀ l ∈ chunks, l ≠ []) (h2 : ∀ l ∈ chunks, sepc ∉ l) :
    (pyJoin [sepc] chunks).head? ≠ some sepc := by
  cases chunks with
  | nil => simp [pyJoin]
  | cons x xs =>
    have hx : x ≠ [] := h1 x (List.mem_cons_self _ _)
    have hxs : sepc ∉ x := h2 x (List.mem_cons_self _ _)
    cases x with
    | nil => exact absurd rfl hx
    | cons a x' =>
      have ha : a ≠ sepc := fun hh => hxs (hh ▸ List.mem_cons_self _ _)
      cases xs with
      | nil =>
        simp only [pyJoin, List.head?_cons]
        exact fun hh => ha (Option.some.inj hh)
      | cons y ys =>
        simp only [pyJoin, List.cons_append, List.head?_cons]
        exact fun hh => ha (Option.some.inj hh)

theorem pyJoin_getLast_ne (sepc : Char) :
    ∀ (chunks : List Str), (∀ l ∈ chunks, l ≠ []) → (∀ l ∈ chunks, sepc ∉ l) →
      (pyJoin [sepc] chunks).getLast? ≠ some sepc := by
  intro chunks
  induction chunks with
  | nil => simp [pyJoin]
  | cons x xs ih =>
    intro h1 h2
    cases xs with
    | nil =>
      simp only [pyJoin]
      intro hh
      exact h2 x (List.mem_cons_self _ _) (List.mem_of_mem_getLast? hh)
    | cons y ys =>
      have hy : y ≠ [] := h1 y (List.mem_cons_of_mem _ (List.mem_cons_self _ _))
      have hJ : pyJoin [sepc] (y :: ys) ≠ [] := pyJoin_ne_nil [sepc] y ys hy
      have ihJ : (pyJoin [sepc] (y :: ys)).getLast? ≠ some sepc :=
        ih (fun l hl => h1 l (List.mem_cons_of_mem _ hl))
          (fun l hl => h2 l (List.mem_cons_of_mem _ hl))
      simp only [pyJoin, List.append_assoc]
      rw [List.getLast?_append, List.getLast?_append]
      obtain ⟨j, hj⟩ := Option.isSome_iff_exists.mp (List.getLast?_isSome.mpr hJ)
      rw [hj]
      simp only [Option.or_some]
      rw [hj] at ihJ
      exact ihJ

theorem chain'_of_not_mem (sepc : Char) :
    ∀ (l : Str), sepc ∉ l → List.Chain' (fun a b => ¬(a = sepc ∧ b = sepc)) l := by
  intro l
  induction l with
  | nil => intro; exact List.chain'_nil
  | cons a rest ih =>
    intro h
    have ha : a ≠ sepc := fun hh => h (hh ▸ List.mem_cons_self _ _)
    have hrest : sepc ∉ rest := fun hh => h (List.mem_cons_of_mem _ hh)
    rw [List.chain'_cons']
    exact ⟨fun _ _ => fun hcontra => ha hcontra.1, ih hrest⟩

theorem pyJoin_chain' (sepc : Char) :
    ∀ (chunks : List Str), (∀ l ∈ chunks, l ≠ []) → (∀ l ∈ chunks, sepc ∉ l) →
      List.Chain' (fun a b => ¬(a = sepc ∧ b = sepc)) (pyJoin [sepc] chunks) := by
  intro chunks
  induction chunks with
  | nil => intro _ _; exact List.chain'_nil
  | cons x xs ih =>
    intro h1 h2
    have hx : sepc ∉ x := h2 x (List.mem_cons_self _ _)
    cases xs with
    | nil =>
      simpa only [pyJoin] using chain'_of_not_mem sepc x hx
    | cons y ys =>
      have hrest1 : ∀ l ∈ y :: ys, l ≠ [] := fun l hl => h1 l (List.mem_cons_of_mem _ hl)
      have hrest2 : ∀ l ∈ y :: ys, sepc ∉ l := fun l hl => h2 l (List.mem_cons_of_mem _ hl)
      have hJhead : (pyJoin [sepc] (y :: ys)).head? ≠ some sepc :=
        pyJoin_head_ne sepc (y :: ys) hrest1 hrest2
      simp only [pyJoin, List.append_assoc]
      rw [show [sepc] ++ pyJoin [sepc] (y :: ys) = sepc :: pyJoin [sepc] (y :: ys) from rfl]
      rw [List.chain'_append]
      refine ⟨chain'_of_not_mem sepc x hx, ?_, ?_⟩
      · rw [List.chain'_cons']
        refine ⟨?_, ih hrest1 hrest2⟩
        intro b hb hcontra
        rw [Option.mem_def] at hb
        rw [hcontra.2] at hb
        exact hJhead hb
      · intro a ha b hb hcontra
        have hax : a ∈ x := List.mem_of_mem_getLast? ha
        rw [hcontra.1] at hax
        exact hx hax

/-! ## The canonical shape of `format_identifier` output -/

/-- The character-filtered intermediate string of `format_identifier`. -/
def prepped (s : Str) : Str :=
  ((s.map Char.toUpper).map (fun c => if c = ' ' then '_' else c)).filter
    (fun c => c.isAlphanum || c == '_')

/-- The non-empty underscore-separated fragments of the intermediate string. -/
def chunksOf (s : Str) : List Str :=
  (pySplitChar '_' (prepped s)).filter (fun l => !l.isEmpty)

theorem format_identifier_eq_join (s : Str) :
    format_identifier s = pyJoin ['_'] (chunksOf s) := rfl

theorem chunksOf_ne_nil (s : Str) : ∀ l ∈ chunksOf s, l ≠ [] := by
  intro l hl
  have := (List.mem_filter.mp hl).2
  simpa using this

theorem chunksOf_not_mem (s : Str) : ∀ l ∈ chunksOf s, '_' ∉ l := by
  intro l hl
  exact pySplitChar_not_mem '_' (prepped s) l (List.mem_filter.mp hl).1

theorem prepped_chars (s : Str) : ∀ c ∈ prepped s, isIdentChar c = true := by
  intro c hc
  obtain ⟨hmem, hkeep⟩ := List.mem_filter.mp hc
  obtain ⟨c1, hc1, hrepl⟩ := List.mem_map.mp hmem
  obtain ⟨c0, _, hup⟩ := List.mem_map.mp hc1
  by_cases hsp : c1 = ' '
  · rw [if_pos hsp] at hrepl
    subst hrepl
    decide
  · rw [if_neg hsp] at hrepl
    subst hrepl
    subst hup
    exact isIdentChar_of_kept _ hkeep (toUpper_not_lower c0)

theorem chunksOf_chars (s : Str) : ∀ l ∈ chunksOf s, ∀ c ∈ l, isIdentChar c = true := by
  intro l hl c hc
  exact prepped_chars s c
    (pySplitChar_mem_mem '_' (prepped s) l (List.mem_filter.mp hl).1 c hc)

theorem format_identifier_chars (s : Str) :
    ∀ c ∈ format_identifier s, isIdentChar c = true := by
  intro c hc
  rw [format_identifier_eq_join] at hc
  rcases pyJoin_mem ['_'] (chunksOf s) c hc with h | ⟨x, hx, hcx⟩
  · simp at h
    subst h
    decide
  · exact chunksOf_chars s x hx c hcx

theorem prepped_of_canonical (t : Str) (h : ∀ c ∈ t, isIdentChar c = true) :
    prepped t = t := by
  unfold prepped
  have h1 : t.map Char.toUpper = t := by
    conv_rhs => rw [show t = t.map id from (List.map_id t).symm]
    exact List.map_congr_left (fun a ha => isIdentChar_toUpper_fix a (h a ha))
  rw [h1]
  have h2 : t.map (fun c => if c = ' ' then '_' else c) = t := by
    conv_rhs => rw [show t = t.map id from (List.map_id t).symm]
    exact List.map_congr_left (fun a ha => if_neg (isIdentChar_ne_space a (h a ha)))
  rw [h2]
  exact List.filter_eq_self.mpr (fun a ha => isIdentChar_keep a (h a ha))

theorem format_identifier_idem (s : Str) :
    format_identifier (format_identifier s) = format_identifier s := by
  rw [format_identifier_eq_join s]
  cases hch : chunksOf s with
  | nil => rfl
  | cons x xs =>
    have hne : ∀ l ∈ chunksOf s, l ≠ [] := chunksOf_ne_nil s
    have hnm : ∀ l ∈ chunksOf s, '_' ∉ l := chunksOf_not_mem s
    rw [hch] at hne hnm
    have hchars : ∀ c ∈ pyJoin ['_'] (x :: xs), isIdentChar c = true := by
      have := format_identifier_chars s
      rw [format_identifier_eq_join, hch] at this
      exact this
    rw [format_identifier_eq_join]
    unfold chunksOf
    rw [prepped_of_canonical _ hchars]
    rw [pySplitChar_pyJoin '_' (x :: xs) (by simp) hnm]
    rw [List.filter_eq_self.mpr (fun l hl => by simpa using hne l hl)]

/-- C3, part of: the output never starts with an underscore. -/
theorem format_identifier_head (s : Str) :
    (format_identifier s).head? ≠ some '_' := by
  rw [format_identifier_eq_join]
  exact pyJoin_head_ne '_' (chunksOf s) (chunksOf_ne_nil s) (chunksOf_not_mem s)

theorem format_identifier_getLast (s : Str) :
    (format_identifier s).getLast? ≠ some '_' := by
  rw [format_identifier_eq_join]
  exact pyJoin_getLast_ne '_' (chunksOf s) (chunksOf_ne_nil s) (chunksOf_not_mem s)

theorem format_identifier_chain (s : Str) :
    List.Chain' (fun a b => ¬(a = '_' ∧ b = '_')) (format_identifier s) := by
  rw [format_identifier_eq_join]
  exact pyJoin_chain' '_' (chunksOf s) (chunksOf_ne_nil s) (chunksOf_not_mem s)

/-- **C3.**  For every input string, `format_identifier` output contains only
uppercase letters, digits, and underscores, never starts or ends with an
underscore, never contains two adjacent underscores, and the function is
idempotent; the empty string maps to the empty string. -/
theorem format_identifier_canonical (s : Str) :
    (format_identifier s).all isIdentChar = true ∧
    (format_identifier s).head? ≠ some '_' ∧
    (format_identifier s).getLast? ≠ some '_' ∧
    List.Chain' (fun a b => ¬(a = '_' ∧ b = '_')) (format_identifier s) ∧
    format_identifier (format_identifier s) = format_identifier s ∧
    format_identifier ([] : Str) = [] :=
  ⟨List.all_eq_true.mpr (format_identifier_chars s), format_identifier_head s,
   format_identifier_getLast s, format_identifier_chain s,
   format_identifier_idem s, rfl⟩

/-- **C10.**  `get_page_title` returns `"NC"` exactly when the page has no
title element and `format_identifier` of the title text otherwise, so the
page-namespace prefix is always itself in canonical identifier shape. -/
theorem get_page_title_spec :
    get_page_title none = ("NC").toList ∧
    (∀ s : Str, get_page_title (some s) = format_identifier s) ∧
    (∀ t : Option Str,
      (get_page_title t).all isIdentChar = true ∧
      (get_page_title t).head? ≠ some '_' ∧
      (get_page_title t).getLast? ≠ some '_' ∧
      List.Chain' (fun a b => ¬(a = '_' ∧ b = '_')) (get_page_title t)) := by
  refine ⟨rfl, fun _ => rfl, ?_⟩
  intro t
  cases t with
  | none =>
    refine ⟨by decide, by decide, by decide, ?_⟩
    show List.Chain' _ ['N', 'C']
    rw [List.chain'_cons]
    exact ⟨by decide, List.chain'_singleton _⟩
  | some s =>
    exact ⟨List.all_eq_true.mpr (format_identifier_chars s), format_identifier_head s,
      format_identifier_getLast s, format_identifier_chain s⟩

/-! ## Decimal suffixes -/

theorem natToCharsAux_zero (f : Nat) : natToCharsAux f 0 = [] := by
  cases f <;> rfl

theorem natToCharsAux_digits :
    ∀ (f n : Nat), ∀ c ∈ natToCharsAux f n, ∃ d, d < 10 ∧ c = Nat.digitChar d := by
  intro f
  induction f with
  | zero => intro n c hc; exact absurd hc (List.not_mem_nil c)
  | succ g ih =>
    intro n c hc
    cases n with
    | zero => exact absurd hc (List.not_mem_nil c)
    | succ m =>
      simp only [natToCharsAux, List.mem_append, List.mem_singleton] at hc
      rcases hc with h | h
      · exact ih _ c h
      · exact ⟨(m + 1) % 10, Nat.mod_lt _ (by omega), h⟩

theorem digitChar_lt_ten_ne_underscore : ∀ d, d < 10 → Nat.digitChar d ≠ '_' := by
  decide

theorem digitChar_inj_lt_ten :
    ∀ d1, d1 < 10 → ∀ d2, d2 < 10 → Nat.digitChar d1 = Nat.digitChar d2 → d1 = d2 := by
  decide

theorem natToChars_not_underscore (n : Nat) : '_' ∉ natToChars n := by
  unfold natToChars
  by_cases h : n = 0
  · rw [if_pos h]
    decide
  · rw [if_neg h]
    intro hc
    obtain ⟨d, hd, hcd⟩ := natToCharsAux_digits n n '_' hc
    exact digitChar_lt_ten_ne_underscore d hd hcd.symm

theorem natToCharsAux_ne_nil (f n : Nat) (hf : 1 ≤ f) (hn : 1 ≤ n) :
    natToCharsAux f n ≠ [] := by
  obtain ⟨g, rfl⟩ := Nat.exists_eq_add_of_le hf
  obtain ⟨m, rfl⟩ := Nat.exists_eq_add_of_le hn
  rw [Nat.add_comm 1 g, Nat.add_comm 1 m]
  simp [natToCharsAux]

theorem natToChars_ne_nil (n : Nat) : natToChars n ≠ [] := by
  unfold natToChars
  by_cases h : n = 0
  · rw [if_pos h]; simp
  · rw [if_neg h]
    exact natToCharsAux_ne_nil n n (by omega) (by omega)

theorem natToCharsAux_inj :
    ∀ (f1 f2 n1 n2 : Nat), n1 ≤ f1 → n2 ≤ f2 → 1 ≤ n1 → 1 ≤ n2 →
      natToCharsAux f1 n1 = natToCharsAux f2 n2 → n1 = n2 := by
  intro f1
  induction f1 with
  | zero => intro f2 n1 n2 h1 _ hn1 _ _; omega
  | succ g1 ih =>
    intro f2 n1 n2 h1 h2 hn1 hn2 he
    cases f2 with
    | zero => omega
    | succ g2 =>
      obtain ⟨m1, rfl⟩ : ∃ m1, n1 = m1 + 1 := ⟨n1 - 1, by omega⟩
      obtain ⟨m2, rfl⟩ : ∃ m2, n2 = m2 + 1 := ⟨n2 - 1, by omega⟩
      simp only [natToCharsAux] at he
      obtain ⟨hA, hd⟩ := List.append_inj' he rfl
      have hr : (m1 + 1) % 10 = (m2 + 1) % 10 :=
        digitChar_inj_lt_ten _ (Nat.mod_lt _ (by omega)) _ (Nat.mod_lt _ (by omega))
          (List.singleton_inj.mp hd)
      by_cases hq1 : (m1 + 1) / 10 = 0
      · by_cases hq2 : (m2 + 1) / 10 = 0
        · omega
        · rw [hq1, natToCharsAux_zero] at hA
          exact absurd hA.symm
            (natToCharsAux_ne_nil g2 ((m2 + 1) / 10)
              (by have := Nat.div_lt_self (Nat.succ_pos m2) (by omega : 1 < 10); omega)
              (by omega))
      · by_cases hq2 : (m2 + 1) / 10 = 0
        · rw [hq2, natToCharsAux_zero] at hA
          exact absurd hA
            (natToCharsAux_ne_nil g1 ((m1 + 1) / 10)
              (by have := Nat.div_lt_self (Nat.succ_pos m1) (by omega : 1 < 10); omega)
              (by omega))
        · have hq : (m1 + 1) / 10 = (m2 + 1) / 10 :=
            ih g2 _ _
              (by have := Nat.div_lt_self (Nat.succ_pos m1) (by omega : 1 < 10); omega)
              (by have := Nat.div_lt_self (Nat.succ_pos m2) (by omega : 1 < 10); omega)
              (by omega) (by omega) hA
          omega

theorem natToChars_inj_pos {a b : Nat} (ha : 1 ≤ a) (hb : 1 ≤ b)
    (h : natToChars a = natToChars b) : a = b := by
  unfold natToChars at h
  rw [if_neg (by omega), if_neg (by omega)] at h
  exact natToCharsAux_inj a b a b le_rfl le_rfl ha hb h

/-- Uniqueness of splitting a string at a separator whose right part is known
to avoid the separator: stated with the separator-free part on the left. -/
theorem sep_split_unique {sepc : Char} :
    ∀ (a1 : Str) (a2 : Str) (b1 b2 : Str), sepc ∉ a1 → sepc ∉ a2 →
      a1 ++ sepc :: b1 = a2 ++ sepc :: b2 → a1 = a2 ∧ b1 = b2 := by
  intro a1
  induction a1 with
  | nil =>
    intro a2 b1 b2 _ h2 he
    cases a2 with
    | nil =>
      simp only [List.nil_append, List.cons.injEq] at he
      exact ⟨rfl, he.2⟩
    | cons c a2' =>
      simp only [List.nil_append, List.cons_append, List.cons.injEq] at he
      exact absurd (he.1 ▸ List.mem_cons_self _ _) h2
  | cons c a1' ih =>
    intro a2 b1 b2 h1 h2 he
    cases a2 with
    | nil =>
      simp only [List.cons_append, List.nil_append, List.cons.injEq] at he
      exact absurd (he.1 ▸ List.mem_cons_self _ _) h1
    | cons c2 a2' =>
      simp only [List.cons_append, List.cons.injEq] at he
      obtain ⟨rfl, he2⟩ := he
      have := ih a2' b1 b2 (fun hh => h1 (List.mem_cons_of_mem _ hh))
        (fun hh => h2 (List.mem_cons_of_mem _ hh)) he2
      exact ⟨by rw [this.1], this.2⟩

/-- Two suffixed identifiers agree exactly when base and counter agree. -/
theorem suffixed_inj {b1 b2 : Str} {k1 k2 : Nat} (hk1 : 1 ≤ k1) (hk2 : 1 ≤ k2)
    (e : b1 ++ '_' :: natToChars k1 = b2 ++ '_' :: natToChars k2) :
    b1 = b2 ∧ k1 = k2 := by
  have he' := congrArg List.reverse e
  simp only [List.reverse_append, List.reverse_cons, List.append_assoc,
    List.singleton_append] at he'
  have hsplit := sep_split_unique (natToChars k1).reverse (natToChars k2).reverse
    b1.reverse b2.reverse
    (fun hh => natToChars_not_underscore k1 (List.mem_reverse.mp hh))
    (fun hh => natToChars_not_underscore k2 (List.mem_reverse.mp hh)) he'
  refine ⟨List.reverse_injective hsplit.2, ?_⟩
  exact natToChars_inj_pos hk1 hk2 (List.reverse_injective hsplit.1)

/-! ## The identifier-assignment core of pass 2 -/

/-- The data pass 2 actually consumes from each row: its base identifier
together with whether the `ErrorCode(row[1], row[3], ...)` construction at
line 365 succeeds (both lookups in range). -/
def tokens (rows : List RowData) : List (Str × Bool) :=
  rows.filterMap fun r =>
    (baseId r.1 r.2.1 r.2.2).map
      fun b => (b, (pyGet r.2.1 1).isSome && (pyGet r.2.1 3).isSome)

/-- Pass 2 restricted to identifiers: the per-base counter is consulted and
advanced exactly as in lines 352-363. -/
def assign (counts : Str → Nat) : List (Str × Bool) → (Str → Nat) → List Str
  | [], _ => []
  | (b, e) :: rest, m =>
    if counts b = 0 then assign counts rest m
    else if 1 < counts b then
      let ids := assign counts rest (bump m b (m b + 1))
      if e then (b ++ '_' :: natToChars (m b + 1)) :: ids else ids
    else if e then b :: assign counts rest m else assign counts rest m

theorem tokens_map_fst (rows : List RowData) :
    (tokens rows).map Prod.fst = allBaseIds rows := by
  induction rows with
  | nil => rfl
  | cons r rest ih =>
    simp only [tokens, allBaseIds, List.filterMap_cons] at *
    cases baseId r.1 r.2.1 r.2.2 with
    | none => simpa using ih
    | some b => simpa using ih

theorem pass2_map_ids (counts : Str → Nat) :
    ∀ (rows : List RowData) (m : Str → Nat),
      (pass2 counts rows m).map ErrorCode.identifier = assign counts (tokens rows) m := by
  intro rows
  induction rows with
  | nil => intro m; rfl
  | cons r rest ih =>
    intro m
    simp only [pass2, tokens, List.filterMap_cons]
    cases hb : baseId r.1 r.2.1 r.2.2 with
    | none => exact ih m
    | some b =>
      simp only [Option.map_some]
      by_cases h0 : counts b = 0
      · simp only [assign, if_pos h0]
        exact ih m
      · by_cases h1 : 1 < counts b
        · cases hg1 : pyGet r.2.1 1 with
          | none =>
            simp [assign, h0, h1, hg1, ih, tokens]
          | some c =>
            cases hg3 : pyGet r.2.1 3 with
            | none => simp [assign, h0, h1, hg1, hg3, ih, tokens]
            | some d => simp [assign, h0, h1, hg1, hg3, ih, tokens]
        · cases hg1 : pyGet r.2.1 1 with
          | none =>
            simp [assign, h0, h1, hg1, ih, tokens]
          | some c =>
            cases hg3 : pyGet r.2.1 3 with
            | none => simp [assign, h0, h1, hg1, hg3, ih, tokens]
            | some d => simp [assign, h0, h1, hg1, hg3, ih, tokens]

theorem assign_mem (counts : Str → Nat) :
    ∀ (t : List (Str × Bool)) (m : Str → Nat) (s : Str), s ∈ assign counts t m →
      (∃ b, b ∈ t.map Prod.fst ∧ counts b ≤ 1 ∧ s = b) ∨
      (∃ b k, b ∈ t.map Prod.fst ∧ 1 < counts b ∧ m b + 1 ≤ k ∧
        s = b ++ '_' :: natToChars k) := by
  intro t
  induction t with
  | nil => intro m s hs; exact absurd hs (List.not_mem_nil s)
  | cons p rest ih =>
    obtain ⟨b, e⟩ := p
    intro m s hs
    have weaken :
        (∃ b', b' ∈ rest.map Prod.fst ∧ counts b' ≤ 1 ∧ s = b') ∨
        (∃ b' k, b' ∈ rest.map Prod.fst ∧ 1 < counts b' ∧ m b' + 1 ≤ k ∧
          s = b' ++ '_' :: natToChars k) →
        (∃ b', b' ∈ ((b, e) :: rest).map Prod.fst ∧ counts b' ≤ 1 ∧ s = b') ∨
        (∃ b' k, b' ∈ ((b, e) :: rest).map Prod.fst ∧ 1 < counts b' ∧ m b' + 1 ≤ k ∧
          s = b' ++ '_' :: natToChars k) := by
      rintro (⟨b', h1, h2, h3⟩ | ⟨b', k, h1, h2, h3, h4⟩)
      · exact Or.inl ⟨b', List.mem_cons_of_mem _ h1, h2, h3⟩
      · exact Or.inr ⟨b', k, List.mem_cons_of_mem _ h1, h2, h3, h4⟩
    simp only [assign] at hs
    by_cases h0 : counts b = 0
    · rw [if_pos h0] at hs
      exact weaken (ih m s hs)
    · rw [if_neg h0] at hs
      by_cases h1 : 1 < counts b
      · rw [if_pos h1] at hs
        have bump_case :
            s ∈ assign counts rest (bump m b (m b + 1)) →
            (∃ b', b' ∈ ((b, e) :: rest).map Prod.fst ∧ counts b' ≤ 1 ∧ s = b') ∨
            (∃ b' k, b' ∈ ((b, e) :: rest).map Prod.fst ∧ 1 < counts b' ∧ m b' + 1 ≤ k ∧
              s = b' ++ '_' :: natToChars k) := by
          intro hmem
          rcases ih (bump m b (m b + 1)) s hmem with ⟨b', hm, hc, hseq⟩ | ⟨b', k, hm, hc, hk, hseq⟩
          · exact Or.inl ⟨b', List.mem_cons_of_mem _ hm, hc, hseq⟩
          · refine Or.inr ⟨b', k, List.mem_cons_of_mem _ hm, hc, ?_, hseq⟩
            by_cases hbb : b' = b
            · subst hbb
              simp [bump] at hk
              omega
            · simpa only [bump, if_neg hbb] using hk
        cases e with
        | true =>
          rcases List.mem_cons.mp hs with hhd | htl
          · exact Or.inr ⟨b, m b + 1, List.mem_cons_self _ _, h1, le_rfl, hhd⟩
          · exact bump_case htl
        | false => exact bump_case hs
      · rw [if_neg h1] at hs
        cases e with
        | true =>
          rcases List.mem_cons.mp hs with hhd | htl
          · exact Or.inl ⟨b, List.mem_cons_self _ _, by omega, hhd⟩
          · exact weaken (ih m s htl)
        | false => exact weaken (ih m s hs)

theorem assign_nodup (counts : Str → Nat) (bases : List Str)
    (hSF : ∀ b1 ∈ bases, ∀ b2 ∈ bases, ∀ k : Nat, 1 ≤ k →
      b1 ≠ b2 ++ '_' :: natToChars k) :
    ∀ (t : List (Str × Bool)) (m : Str → Nat),
      (∀ b, (t.map Prod.fst).count b ≤ counts b) →
      (∀ b ∈ t.map Prod.fst, b ∈ bases) →
      (assign counts t m).Nodup := by
  intro t
  induction t with
  | nil => intro m _ _; exact List.nodup_nil
  | cons p rest ih =>
    obtain ⟨b, e⟩ := p
    intro m hle hmem
    have hle' : ∀ b', (rest.map Prod.fst).count b' ≤ counts b' := by
      intro b'
      have := hle b'
      simp only [List.map_cons, List.count_cons] at this
      omega
    have hmem' : ∀ b' ∈ rest.map Prod.fst, b' ∈ bases :=
      fun b' hb' => hmem b' (List.mem_cons_of_mem _ hb')
    have hbb : b ∈ bases := hmem b (by simp)
    simp only [assign]
    by_cases h0 : counts b = 0
    · rw [if_pos h0]
      exact ih m hle' hmem'
    · rw [if_neg h0]
      by_cases h1 : 1 < counts b
      · rw [if_pos h1]
        cases e with
        | true =>
          rw [if_pos rfl, List.nodup_cons]
          refine ⟨?_, ih (bump m b (m b + 1)) hle' hmem'⟩
          intro hmem2
          rcases assign_mem counts rest (bump m b (m b + 1)) _ hmem2 with
            ⟨b', hm, _, hseq⟩ | ⟨b', k, hm, _, hk, hseq⟩
          · exact hSF b' (hmem' b' hm) b hbb (m b + 1) (by omega) hseq.symm
          · have hkk : 1 ≤ k := by
              by_cases hb' : b' = b
              · subst hb'; simp [bump] at hk; omega
              · simp only [bump, if_neg hb'] at hk; omega
            obtain ⟨hb', hcnt⟩ := suffixed_inj (by omega) hkk hseq
            subst hb'
            simp [bump] at hk
            omega
        | false => exact ih (bump m b (m b + 1)) hle' hmem'
      · rw [if_neg h1]
        cases e with
        | true =>
          rw [if_pos rfl, List.nodup_cons]
          refine ⟨?_, ih m hle' hmem'⟩
          intro hmem2
          rcases assign_mem counts rest m _ hmem2 with
            ⟨b', hm, _, hseq⟩ | ⟨b', k, hm, _, hk, hseq⟩
          · subst hseq
            have := hle b
            simp only [List.map_cons, List.count_cons] at this
            have hcnt : 0 < (rest.map Prod.fst).count b := List.count_pos_iff.mpr hm
            simp at this
            omega
          · exact hSF b hbb b' (hmem' b' hm) k (by omega) hseq
        | false => exact ih m hle' hmem'

/-- A base-identifier multiset is suffix-free when no element is literally
another element followed by an underscore and a (positive) decimal counter:
exactly the shape of the disambiguation suffixes of pass 2. -/
def SuffixFree (bases : List Str) : Prop :=
  ∀ b1 ∈ bases, ∀ b2 ∈ bases, ∀ k : Nat, 1 ≤ k → b1 ≠ b2 ++ '_' :: natToChars k

/-- Rows on one page whose base identifiers collide through suffixing: the
duplicated seed `FOO` emits `NC_FOO_1`, which is also the (unique, hence
unsuffixed) base identifier of the seed `FOO 1`. -/
def collisionRows : List RowData :=
  [((("NC").toList), [[], ("1").toList, [], ("d").toList, ("FOO").toList], -1),
   ((("NC").toList), [[], ("2").toList, [], ("d").toList, ("FOO").toList], -1),
   ((("NC").toList), [[], ("3").toList, [], ("d").toList, ("FOO 1").toList], -1)]

/-- **C1, counterexample.**  The final identifiers of `collisionRows` are not
globally unique: `NC_FOO_1` is emitted twice. -/
theorem process_error_codes_identifier_collision :
    idsOf collisionRows =
      [("NC_FOO_1").toList, ("NC_FOO_2").toList, ("NC_FOO_1").toList] ∧
    ¬ (idsOf collisionRows).Nodup := by
  exact ⟨by decide, by decide⟩

/-- **C1, amended.**  When the base identifiers of a run are suffix-free, the
final identifiers produced by `process_error_codes` are globally unique. -/
theorem process_error_codes_nodup_of_suffixFree (rows : List RowData)
    (h : SuffixFree (allBaseIds rows)) : (idsOf rows).Nodup := by
  unfold idsOf process_error_codes
  rw [pass2_map_ids]
  apply assign_nodup (countsOf rows) (allBaseIds rows) h
  · intro b
    rw [tokens_map_fst]
    exact le_rfl
  · intro b hb
    rw [tokens_map_fst] at hb
    exact hb

/-- A single-row run used to instantiate the amended C1 theorem. -/
def singleRowRun : List RowData :=
  [((("NC").toList), [[], ("1").toList, [], ("d").toList, ("FOO").toList], -1)]

/-- **C1, witness** for the amended theorem at a concrete input. -/
theorem process_error_codes_nodup_witness : (idsOf singleRowRun).Nodup := by
  apply process_error_codes_nodup_of_suffixFree
  have hbase : allBaseIds singleRowRun = [("NC_FOO").toList] := by decide
  intro b1 hb1 b2 hb2 k _ heq
  rw [hbase] at hb1 hb2
  rw [List.mem_singleton] at hb1 hb2
  subst hb1
  subst hb2
  have hlen := congrArg List.length heq
  rw [List.length_append, List.length_cons] at hlen
  have h6 : (("NC_FOO").toList).length = 6 := by decide
  omega

/-- The claim's description of duplicate resolution, written from its words:
walk the occurrences in original source order keeping a per-base rank
(`seen b + 1` is the 1-based rank of this occurrence among all occurrences of
`b`); an occurrence of a base with total count greater than one is emitted as
`BASE_<rank>`, an occurrence of a base with total count one is emitted
unchanged; `e` again records whether the row is actually emitted. -/
def specSuffixIds (counts : Str → Nat) : List (Str × Bool) → (Str → Nat) → List Str
  | [], _ => []
  | (b, e) :: rest, seen =>
    let out := if 1 < counts b then b ++ '_' :: natToChars (seen b + 1) else b
    let restIds := specSuffixIds counts rest (bump seen b (seen b + 1))
    if e then out :: restIds else restIds

theorem assign_eq_spec (counts : Str → Nat) :
    ∀ (t : List (Str × Bool)) (m seen : Str → Nat),
      (∀ b ∈ t.map Prod.fst, 1 ≤ counts b) →
      (∀ b, 1 < counts b → m b = seen b) →
      assign counts t m = specSuffixIds counts t seen := by
  intro t
  induction t with
  | nil => intro m seen _ _; rfl
  | cons p rest ih =>
    obtain ⟨b, e⟩ := p
    intro m seen hpos hsync
    have hb1 : 1 ≤ counts b := hpos b (by simp)
    simp only [assign, specSuffixIds, if_neg (by omega : ¬counts b = 0)]
    have hpos' : ∀ b' ∈ rest.map Prod.fst, 1 ≤ counts b' :=
      fun b' hb' => hpos b' (List.mem_cons_of_mem _ hb')
    by_cases h1 : 1 < counts b
    · rw [if_pos h1, if_pos h1, hsync b h1]
      have hrec : assign counts rest (bump m b (m b + 1)) =
          specSuffixIds counts rest (bump seen b (seen b + 1)) := by
        apply ih _ _ hpos'
        intro b' hb'
        by_cases hbb : b' = b
        · subst hbb
          simp only [bump, if_pos rfl]
          rw [hsync b' h1]
        · simp only [bump, if_neg hbb]
          exact hsync b' hb'
      rw [hsync b h1] at hrec
      rw [hrec]
    · rw [if_neg h1, if_neg h1]
      have hrec : assign counts rest m = specSuffixIds counts rest (bump seen b (seen b + 1)) := by
        apply ih _ _ hpos'
        intro b' hb'
        by_cases hbb : b' = b
        · subst hbb
          omega
        · simp only [bump, if_neg hbb]
          exact hsync b' hb'
      rw [hrec]

/-- **C2.**  The identifiers emitted by `process_error_codes` are exactly
those of the rank-based per-base-counter description: every occurrence of a
base identifier with total count greater than one carries the suffix `_<rank>`
with ranks `1, 2, ...` assigned in original source order (so no occurrence of
a duplicated base is ever emitted unsuffixed), and a base identifier with
total count exactly one is emitted unchanged. -/
theorem process_error_codes_suffix_order (rows : List RowData) :
    idsOf rows = specSuffixIds (countsOf rows) (tokens rows) (fun _ => 0) := by
  unfold idsOf process_error_codes
  rw [pass2_map_ids]
  apply assign_eq_spec
  · intro b hb
    rw [tokens_map_fst] at hb
    exact List.count_pos_iff.mpr hb
  · intro _ _
    rfl

/-- A one-table page whose table has no header row. -/
def headerlessPage : List Table := [⟨[], []⟩]

/-- **C4, counterexample.**  The claim "fails with a no-table error exactly
when the page contains zero table elements *with header rows*" is false: this
page has zero tables with header rows, yet extraction succeeds (the
headerless table is merely skipped). -/
theorem extract_table_data_headerless_no_error :
    ¬ ((extract_table_data headerlessPage).isNone = true ↔
        headerlessPage.filter (fun t => !t.ths.isEmpty) = []) := by
  decide

/-- **C4, amended.**  `extract_table_data` fails with the "no table" error
exactly when the page contains zero table elements altogether; in particular
a page whose tables merely lack header rows returns successfully. -/
theorem extract_table_data_error_iff (tables : List Table) :
    extract_table_data tables = none ↔ tables = [] := by
  unfold extract_table_data
  by_cases h : tables = []
  · rw [if_pos h]
    simp [h]
  · rw [if_neg h]
    simp [h]

/-- **C5, counterexample.**  When the CSV write fails, the enum-definition
artifact is never attempted, contradicting "a write failure in one emitter
never suppresses the writing of the others". -/
theorem runWrites_csv_failure_suppresses :
    Artifact.enumDef ∉ runWrites (fun a => decide (a = Artifact.csv)) := by
  decide

/-- **C5, amended.**  A CSV write failure propagates out of `write_to_csv`
into `run`'s outer handler, so only the CSV write is ever attempted; when the
CSV write succeeds all four artifacts are attempted regardless of failures in
the three TwinCAT emitters, which each catch their own `IOError`. -/
theorem runWrites_spec (fails : Artifact → Bool) :
    (fails Artifact.csv = true → runWrites fails = [Artifact.csv]) ∧
    (fails Artifact.csv = false →
      runWrites fails = [Artifact.csv, Artifact.enumDef, Artifact.descFn, Artifact.convFn]) := by
  constructor
  · intro h
    simp [runWrites, writeCsvAttempt, h, writeEnumAttempt, writeDescAttempt, writeConvAttempt]
  · intro h
    simp [runWrites, writeCsvAttempt, h, writeEnumAttempt, writeDescAttempt, writeConvAttempt]

/-- **C5, witness** for the amended theorem at two concrete oracles. -/
theorem runWrites_spec_witness :
    runWrites (fun a => decide (a = Artifact.csv)) = [Artifact.csv] ∧
    runWrites (fun a => decide (a = Artifact.enumDef)) =
      [Artifact.csv, Artifact.enumDef, Artifact.descFn, Artifact.convFn] :=
  ⟨(runWrites_spec (fun a => decide (a = Artifact.csv))).1 (by decide),
   (runWrites_spec (fun a => decide (a = Artifact.enumDef))).2 (by decide)⟩

/-! ## Order-preserving deduplication -/

theorem dedupKeysAux_mem :
    ∀ (f : Nat) (xs : List Str) (x : Str), x ∈ dedupKeysAux f xs → x ∈ xs := by
  intro f
  induction f with
  | zero =>
    intro xs x hx
    cases xs <;> exact absurd hx (List.not_mem_nil x)
  | succ g ih =>
    intro xs x hx
    cases xs with
    | nil => exact absurd hx (List.not_mem_nil x)
    | cons y ys =>
      simp only [dedupKeysAux] at hx
      rcases List.mem_cons.mp hx with h | h
      · simp [h]
      · exact List.mem_cons_of_mem _ (List.mem_of_mem_filter (ih _ x h))

theorem dedupKeysAux_nodup :
    ∀ (f : Nat) (xs : List Str), xs.length ≤ f → (dedupKeysAux f xs).Nodup := by
  intro f
  induction f with
  | zero =>
    intro xs _
    cases xs <;> exact List.nodup_nil
  | succ g ih =>
    intro xs hlen
    cases xs with
    | nil => exact List.nodup_nil
    | cons y ys =>
      simp only [dedupKeysAux]
      rw [List.nodup_cons]
      constructor
      · intro hmem
        have := List.mem_filter.mp (dedupKeysAux_mem g _ y hmem)
        simp at this
      · apply ih
        have := List.length_filter_le (fun z => decide (z ≠ y)) ys
        simp only [List.length_cons] at hlen
        omega

theorem dedupKeysAux_sublist :
    ∀ (f : Nat) (xs : List Str), xs.length ≤ f → List.Sublist (dedupKeysAux f xs) xs := by
  intro f
  induction f with
  | zero =>
    intro xs _
    cases xs with
    | nil => exact List.Sublist.refl []
    | cons y ys => exact List.nil_sublist _
  | succ g ih =>
    intro xs hlen
    cases xs with
    | nil => exact List.Sublist.refl []
    | cons y ys =>
      simp only [dedupKeysAux]
      apply List.Sublist.cons₂
      have h1 : List.Sublist (dedupKeysAux g (ys.filter (fun z => decide (z ≠ y))))
          (ys.filter (fun z => decide (z ≠ y))) := by
        apply ih
        have := List.length_filter_le (fun z => decide (z ≠ y)) ys
        simp only [List.length_cons] at hlen
        omega
      exact h1.trans (List.filter_sublist ys)

theorem dedupKeysAux_mem_of_mem :
    ∀ (f : Nat) (xs : List Str) (x : Str), xs.length ≤ f → x ∈ xs →
      x ∈ dedupKeysAux f xs := by
  intro f
  induction f with
  | zero =>
    intro xs x hlen hx
    cases xs with
    | nil => exact absurd hx (List.not_mem_nil x)
    | cons y ys => simp at hlen
  | succ g ih =>
    intro xs x hlen hx
    cases xs with
    | nil => exact absurd hx (List.not_mem_nil x)
    | cons y ys =>
      simp only [dedupKeysAux]
      by_cases hxy : x = y
      · exact hxy ▸ List.mem_cons_self _ _
      · rcases List.mem_cons.mp hx with h | h
        · exact absurd h hxy
        · apply List.mem_cons_of_mem
          apply ih
          · have := List.length_filter_le (fun z => decide (z ≠ y)) ys
            simp only [List.length_cons] at hlen
            omega
          · exact List.mem_filter.mpr ⟨h, by simpa using hxy⟩

/-- Written from the claim's words for C7: collect links only from the
nearest list following the *first* matching element. -/
def firstMatchLinks (base : Str) : List Node → List Str
  | [] => []
  | n :: rest =>
    if isHeadingTag n.tag ∧ furtherInfo <:+: n.text then
      match rest.find? (fun m => isListTag m.tag) with
      | some m => linksFromList base m
      | none => []
    else firstMatchLinks base rest

/-- A page with two sections both matching "Further Information". -/
def twoSectionDoc : List Node :=
  [⟨.divTag, furtherInfo, []⟩,
   ⟨.ul, [], [⟨some (("http://a").toList)⟩]⟩,
   ⟨.divTag, ("See Further Information below").toList, []⟩,
   ⟨.ol, [], [⟨some (("b.html").toList)⟩]⟩]

/-- **C7, counterexample.**  Link discovery also collects from the list that
follows the *second* matching element, so the "only from the first match"
claim is false on a page with two matching sections. -/
theorem get_page_links_not_first_only :
    get_page_links (("http://base/").toList) twoSectionDoc =
      [("http://a").toList, ("http://base/b.html").toList] ∧
    firstMatchLinks (("http://base/").toList) twoSectionDoc = [("http://a").toList] ∧
    get_page_links (("http://base/").toList) twoSectionDoc ≠
      firstMatchLinks (("http://base/").toList) twoSectionDoc := by
  exact ⟨by decide, by decide, by decide⟩

/-- **C7, amended.**  `get_page_links` collects the items of the nearest list
following *every* matching element, in document order; each collected link is
either already absolute (starts with `http`) or the base URL concatenated
with the raw target; the orchestrator deduplicates the result preserving
first-seen order, and falls back to the entry page when the scan is empty. -/
theorem link_discovery_spec :
    (∀ (base : Str) (doc : List Node),
      (∀ n ∈ doc, ¬(isHeadingTag n.tag ∧ furtherInfo <:+: n.text)) →
        get_page_links base doc = []) ∧
    (∀ (main base : Str) (doc : List Node), get_page_links base doc = [] →
        selectLinks main base doc = [main]) ∧
    (∀ (main base : Str) (doc : List Node), get_page_links base doc ≠ [] →
        selectLinks main base doc = dedupKeys (get_page_links base doc)) ∧
    (∀ xs : List Str,
        (dedupKeys xs).Nodup ∧ List.Sublist (dedupKeys xs) xs ∧ ∀ x ∈ xs, x ∈ dedupKeys xs) ∧
    (∀ (base : Str) (doc : List Node) (l : Str), l ∈ get_page_links base doc →
        (("http").toList) <+: l ∨ ∃ rel, l = base ++ rel) := by
  refine ⟨?_, ?_, ?_, ?_, ?_⟩
  · intro base doc hnone
    induction doc with
    | nil => rfl
    | cons n rest ih =>
      simp only [get_page_links]
      rw [if_neg (hnone n (List.mem_cons_self _ _))]
      simpa using ih (fun n' hn' => hnone n' (List.mem_cons_of_mem _ hn'))
  · intro main base doc h
    simp [selectLinks, h]
  · intro main base doc h
    simp [selectLinks, h]
  · intro xs
    exact ⟨dedupKeysAux_nodup xs.length xs le_rfl,
      dedupKeysAux_sublist xs.length xs le_rfl,
      fun x hx => dedupKeysAux_mem_of_mem xs.length xs x le_rfl hx⟩
  · intro base doc l hl
    induction doc with
    | nil => exact absurd hl (List.not_mem_nil l)
    | cons n rest ih =>
      simp only [get_page_links] at hl
      by_cases hn : isHeadingTag n.tag ∧ furtherInfo <:+: n.text
      · rw [if_pos hn] at hl
        rcases List.mem_append.mp hl with h | h
        · cases hfind : rest.find? (fun m => isListTag m.tag) with
          | none => rw [hfind] at h; exact absurd h (List.not_mem_nil l)
          | some lst =>
            rw [hfind] at h
            obtain ⟨li, _, hres⟩ := List.mem_filterMap.mp h
            obtain ⟨href, _, hmap⟩ := Option.map_eq_some'.mp hres
            unfold resolveHref at hmap
            by_cases habs : (("http").toList).isPrefixOf href
            · rw [if_pos habs] at hmap
              subst hmap
              exact Or.inl (List.isPrefixOf_iff_prefix.mp habs)
            · rw [if_neg habs] at hmap
              exact Or.inr ⟨href, hmap.symm⟩
        · exact ih h
      · rw [if_neg hn] at hl
        simp only [List.nil_append] at hl
        exact ih hl

/-- **C7, witness** for the amended theorem at concrete inputs. -/
theorem link_discovery_spec_witness :
    get_page_links (("http://base/").toList) [] = [] ∧
    selectLinks (("http://m").toList) (("http://base/").toList) [] = [("http://m").toList] ∧
    selectLinks (("http://m").toList) (("http://base/").toList) twoSectionDoc =
      dedupKeys (get_page_links (("http://base/").toList) twoSectionDoc) ∧
    (dedupKeys [("a").toList, ("a").toList]).Nodup :=
  ⟨link_discovery_spec.1 _ [] (fun n hn => absurd hn (List.not_mem_nil n)),
   link_discovery_spec.2.1 _ _ [] rfl,
   link_discovery_spec.2.2.1 _ _ twoSectionDoc (by decide),
   (link_discovery_spec.2.2.2.1 [("a").toList, ("a").toList]).1⟩

/-! ## Slot-level characterization of row processing -/

theorem pySet_some_length {α : Type} {xs : List α} {i : Int} {v : α} {r : List α}
    (h : pySet xs i v = some r) : r.length = xs.length := by
  unfold pySet at h
  dsimp only at h
  split at h
  all_goals
    split at h
    · rw [← Option.some.inj h, List.length_set]
    · exact absurd h (by simp)

theorem pySet_some_get_ne {α : Type} {xs : List α} {i : Int} {v : α} {r : List α}
    (hi : 0 ≤ i) (h : pySet xs i v = some r) (j : Nat) (hj : (j : Int) ≠ i) :
    r.get? j = xs.get? j := by
  unfold pySet at h
  dsimp only at h
  simp only [if_neg (show ¬i < 0 by omega)] at h
  split at h
  · rw [← Option.some.inj h]
    exact List.get?_set_ne _ _ (by omega)
  · exact absurd h (by simp)

theorem symbolWrite_length (sym : Int) (tds : List Cell) (r2 : List Str) :
    (symbolWrite sym tds r2).length = r2.length := by
  unfold symbolWrite
  split
  · cases pyGet tds sym with
    | none => rfl
    | some scell =>
      dsimp only
      by_cases ht : scell.text ≠ []
      · rw [if_pos ht]
        cases hps : pySet r2 sym scell.text with
        | none => rfl
        | some r3 => exact pySet_some_length hps
      · rw [if_neg ht]
  · rfl

theorem symbolWrite_get_ne (sym : Int) (hsym : 0 ≤ sym) (tds : List Cell)
    (r2 : List Str) (j : Nat) (hj : (j : Int) ≠ sym) :
    (symbolWrite sym tds r2).get? j = r2.get? j := by
  unfold symbolWrite
  split
  · cases pyGet tds sym with
    | none => rfl
    | some scell =>
      dsimp only
      by_cases ht : scell.text ≠ []
      · rw [if_pos ht]
        cases hps : pySet r2 sym scell.text with
        | none => rfl
        | some r3 => exact pySet_some_get_ne hsym hps j hj
      · rw [if_neg ht]
  · rfl

theorem symbolWrite_of_blank (sym : Int) (tds : List Cell) (r2 : List Str)
    (hblank : ∀ scell, pyGet tds sym = some scell → scell.text = []) :
    symbolWrite sym tds r2 = r2 := by
  unfold symbolWrite
  split
  · cases hg : pyGet tds sym with
    | none => rfl
    | some scell =>
      dsimp only
      rw [if_neg (by simpa using hblank scell hg)]
  · rfl

theorem processRow_eq (sym : Int) (ei di : Nat) (tds : List Cell) (dcell : Cell)
    (h2 : 2 ≤ tds.length) (hec : ((tds.get? ei).map Cell.text).getD [] ≠ [])
    (hd : tds.get? di = some dcell) (hdesc : dcell.inner ≠ []) :
    processRow sym ei di tds =
      some (symbolWrite sym tds
        (stdRowFor sym (((tds.get? ei).map Cell.text).getD []) dcell)) := by
  unfold processRow
  have hne : ¬(tds = []) := by intro h; rw [h] at h2; simp at h2
  rw [if_neg hne, if_pos h2]
  dsimp only
  rw [hd]
  dsimp only
  rw [if_pos ⟨hec, hdesc⟩]

theorem stdRowFor_length (sym : Int) (ec : Str) (dcell : Cell) :
    (stdRowFor sym ec dcell).length = 5 := by
  unfold stdRowFor
  split <;> simp

theorem stdRowFor_get_three (sym : Int) (ec : Str) (dcell : Cell) :
    (stdRowFor sym ec dcell).get? 3 = some (descText dcell) := by
  unfold stdRowFor
  split <;> rfl

theorem stdRowFor_get_four (sym : Int) (ec : Str) (dcell : Cell) :
    (stdRowFor sym ec dcell).get? 4 =
      some (if sym = -1 then seedSlot dcell else []) := by
  unfold stdRowFor
  by_cases h : sym = -1
  · rw [if_pos h, if_pos h]
    rfl
  · rw [if_neg h, if_neg h]
    rfl

theorem symbolWrite_neg_one (tds : List Cell) (r2 : List Str) :
    symbolWrite (-1) tds r2 = r2 := by
  unfold symbolWrite
  rw [if_neg (by simp)]

/-- Written from the claim's words for C6: the stored description is the bold
phrase when it equals the fragment's entire stripped text up to surrounding
whitespace, and otherwise the fragment's full stripped text with every
occurrence of the bold phrase removed and surrounding whitespace trimmed. -/
def claimDesc (strongText : Str) (strings : List Str) : Str :=
  if pyStrip strongText = pyStrip (pyJoin [' '] strings) then strongText
  else pyStrip (removeAll (pyJoin [' '] strings) strongText)

/-- A description cell `B <strong>A</strong> C`. -/
def mixedFragCell : Cell :=
  ⟨[], ("B <strong>A</strong> C").toList, some (("A").toList),
   [("B").toList, ("A").toList, ("C").toList]⟩

/-- A plain code cell. -/
def codeCell : Cell := ⟨("1").toList, ("x").toList, none, []⟩

/-- **C6, counterexample.**  The extractor stores `"B C"` for the fragment
`B <strong>A</strong> C`, while the claim's formula — remove the bold phrase
from the full stripped text, then trim — yields `"B  C"` (with the doubled
inner space left by the removal): the claim's description of the
otherwise-branch is not what the code computes. -/
theorem description_not_claim_formula :
    (processRow (-1) 0 1 [codeCell, mixedFragCell]).map (fun row => row.get? 3) =
      some (some (("B C").toList)) ∧
    claimDesc (("A").toList) [("B").toList, ("A").toList, ("C").toList] =
      ("B  C").toList ∧
    (("B C").toList : Str) ≠ ("B  C").toList :=
  ⟨by decide, by decide, by decide⟩

/-- **C6, amended.**  For every retained row the stored description is
`descText`: the bold phrase verbatim when it is non-empty and strips equal to
the space-join of all stripped text nodes, and otherwise the space-join of
the stripped text nodes *other than those exactly equal to the bold phrase*,
with remaining occurrences of the phrase removed and the ends trimmed; when
no symbol column is declared, the identifier seed slot receives the bold
phrase (`UNKNOWN_IDENTIFIER` when there is none).  A declared symbol column
index of 3 would overwrite the stored description, hence the proviso. -/
theorem processRow_description (sym : Int) (ei di : Nat) (tds : List Cell)
    (dcell : Cell) (h2 : 2 ≤ tds.length)
    (hec : ((tds.get? ei).map Cell.text).getD [] ≠ [])
    (hd : tds.get? di = some dcell) (hdesc : dcell.inner ≠ [])
    (hsym : sym = -1 ∨ (0 ≤ sym ∧ sym ≠ 3)) :
    (processRow sym ei di tds).map (fun row => row.get? 3) =
      some (some (descText dcell)) ∧
    (sym = -1 → (processRow sym ei di tds).map (fun row => row.get? 4) =
      some (some (seedSlot dcell))) := by
  rw [processRow_eq sym ei di tds dcell h2 hec hd hdesc]
  constructor
  · rw [Option.map_some']
    rcases hsym with h | ⟨h0, h3⟩
    · subst h
      rw [symbolWrite_neg_one, stdRowFor_get_three]
    · rw [symbolWrite_get_ne sym h0 tds _ 3 (by omega), stdRowFor_get_three]
  · intro h
    subst h
    rw [Option.map_some', symbolWrite_neg_one, stdRowFor_get_four, if_pos rfl]

/-- The mixed bold/plain description cell of the spec's running example. -/
def lagCell : Cell :=
  ⟨[], ("<strong>Lag error:</strong> velocity exceeded limit").toList,
   some (("Lag error:").toList),
   [("Lag error:").toList, ("velocity exceeded limit").toList]⟩

/-- **C6, witness** at the spec's `Lag error:` example. -/
theorem processRow_description_witness :
    (processRow (-1) 0 1 [codeCell, lagCell]).map (fun row => row.get? 3) =
      some (some (descText lagCell)) ∧
    (processRow (-1) 0 1 [codeCell, lagCell]).map (fun row => row.get? 4) =
      some (some (seedSlot lagCell)) ∧
    descText lagCell = ("velocity exceeded limit").toList ∧
    seedSlot lagCell = ("Lag error:").toList := by
  have h := processRow_description (-1) 0 1 [codeCell, lagCell] lagCell
    (by decide) (by decide) (by decide) (by decide) (Or.inl rfl)
  exact ⟨h.1, h.2 rfl, by decide, by decide⟩

/-- A six-column table declaring `Symbol` at index 5: the `std_row` write at
that index raises `IndexError` on the five-slot row. -/
def wideSymbolTable : Table :=
  ⟨[("error").toList, ("description").toList, ("c").toList, ("d").toList,
    ("e").toList, ("symbol").toList],
   [[],
    [⟨("100").toList, [], none, []⟩,
     ⟨[], ("<strong>A</strong>").toList, some (("A").toList), [("A").toList]⟩,
     ⟨[], [], none, []⟩, ⟨[], [], none, []⟩, ⟨[], [], none, []⟩,
     ⟨("SYM").toList, [], none, []⟩]]⟩

/-- **C8, counterexample.**  On `wideSymbolTable` the symbol write raises
(the declared symbol column index 5 is outside the five-slot row), yet the
retained row's identifier-seed slot is the *empty* string, not
`"UNKNOWN_IDENTIFIER"`: the placeholder is not installed when a symbol
column was declared. -/
theorem raise_without_unknown_forcing :
    extract_table_data [wideSymbolTable] =
      some (wideSymbolTable.ths, [[[], ("100").toList, [], ("A").toList, []]], 5) ∧
    UNKNOWN_IDENTIFIER ∉ [([] : Str), ("100").toList, [], ("A").toList, []] :=
  ⟨by decide, by decide⟩

/-- **C8, amended.**  A row that raises during the symbol write is still
retained (never dropped), but the `"UNKNOWN_IDENTIFIER"` forcing happens only
in the no-symbol-column case: with `sym = -1` slot 4 holds the bold phrase or
the placeholder, while with a declared symbol column (index ≥ 0, other than
4, where the write would legitimately land) slot 4 is left empty, whether or
not the write raised. -/
theorem processRow_retention (sym : Int) (ei di : Nat) (tds : List Cell)
    (dcell : Cell) (h2 : 2 ≤ tds.length)
    (hec : ((tds.get? ei).map Cell.text).getD [] ≠ [])
    (hd : tds.get? di = some dcell) (hdesc : dcell.inner ≠ [])
    (hsym : sym = -1 ∨ (0 ≤ sym ∧ sym ≠ 4)) :
    (processRow sym ei di tds).map (fun row => (row.length, row.get? 4)) =
      some (5, some (if sym = -1 then seedSlot dcell else [])) := by
  rw [processRow_eq sym ei di tds dcell h2 hec hd hdesc, Option.map_some']
  rcases hsym with h | ⟨h0, h4⟩
  · subst h
    rw [symbolWrite_neg_one, stdRowFor_length, stdRowFor_get_four]
  · rw [if_neg (by omega : ¬sym = -1)]
    rw [symbolWrite_length, stdRowFor_length,
      symbolWrite_get_ne sym h0 tds _ 4 (by omega), stdRowFor_get_four,
      if_neg (by omega : ¬sym = -1)]

/-- **C8, witness** at the raising input of `wideSymbolTable`'s data row. -/
theorem processRow_retention_witness :
    (processRow 5 0 1
      [⟨("100").toList, [], none, []⟩,
       ⟨[], ("<strong>A</strong>").toList, some (("A").toList), [("A").toList]⟩,
       ⟨[], [], none, []⟩, ⟨[], [], none, []⟩, ⟨[], [], none, []⟩,
       ⟨("SYM").toList, [], none, []⟩]).map (fun row => (row.length, row.get? 4)) =
      some (5, some []) := by
  have h := processRow_retention 5 0 1
    [⟨("100").toList, [], none, []⟩,
     ⟨[], ("<strong>A</strong>").toList, some (("A").toList), [("A").toList]⟩,
     ⟨[], [], none, []⟩, ⟨[], [], none, []⟩, ⟨[], [], none, []⟩,
     ⟨("SYM").toList, [], none, []⟩]
    (⟨[], ("<strong>A</strong>").toList, some (("A").toList), [("A").toList]⟩)
    (by decide) (by decide) (by decide) (by decide) (Or.inr (by omega))
  simpa using h

/-- A table declaring `Symbol` at index 1, with a data row whose symbol cell
is blank; slot 1 of the five-slot row holds the error code. -/
def symbolAtOneTable : Table :=
  ⟨[("error").toList, ("symbol").toList, ("description").toList],
   [[],
    [⟨("7").toList, [], none, []⟩,
     ⟨[], [], none, []⟩,
     ⟨[], ("<strong>D</strong>").toList, some (("D").toList), [("D").toList]⟩]]⟩

/-- **C9, counterexample.**  With the symbol column at index 1 (not `-1`, not
`4`) and a blank symbol cell, the claim predicts base identifier
`"NC_"`; but slot 1 of the standardized row holds the error code, which is
non-blank, so the resolver uses it: the final identifier is `"NC_7"`. -/
theorem blank_symbol_not_title_underscore :
    extract_table_data [symbolAtOneTable] =
      some (symbolAtOneTable.ths, [[[], ("7").toList, [], ("D").toList, []]], 1) ∧
    idsOf [((("NC").toList), [[], ("7").toList, [], ("D").toList, []], 1)] =
      [("NC_7").toList] ∧
    (("NC_7").toList : Str) ≠ ("NC_").toList :=
  ⟨by decide, by decide, by decide⟩

/-- **C9, amended.**  When the declared symbol column index is 0 or 2 (a
reserved, hence empty, slot) or at least 5 (outside the five-slot row) and
the row's symbol cell is blank, extraction leaves slot 4 empty and the
resolver computes the base identifier as the page title followed by a single
underscore and the empty formatted seed.  Indexes 1 and 3 are excluded: those
slots hold the code and the description, which the resolver then picks up. -/
theorem blank_symbol_empty_seed (sym : Int) (ei di : Nat) (tds : List Cell)
    (dcell : Cell) (pt : Str) (h2 : 2 ≤ tds.length)
    (hec : ((tds.get? ei).map Cell.text).getD [] ≠ [])
    (hd : tds.get? di = some dcell) (hdesc : dcell.inner ≠ [])
    (hs : sym = 0 ∨ sym = 2 ∨ 5 ≤ sym)
    (hblank : ∀ scell, pyGet tds sym = some scell → scell.text = []) :
    (processRow sym ei di tds).map (fun row => (row.get? 4, baseId pt row sym)) =
      some (some [], some (pt ++ ['_'])) := by
  rw [processRow_eq sym ei di tds dcell h2 hec hd hdesc,
    symbolWrite_of_blank sym tds _ hblank, Option.map_some']
  have hrow : stdRowFor sym (((tds.get? ei).map Cell.text).getD []) dcell =
      [[], ((tds.get? ei).map Cell.text).getD [], [], descText dcell, []] := by
    unfold stdRowFor
    rw [if_neg (by omega : ¬sym = -1)]
  rw [hrow]
  have hget4 : ([[], ((tds.get? ei).map Cell.text).getD [], [], descText dcell,
      []] : List Str).get? 4 = some [] := rfl
  rw [hget4]
  have hbase : baseId pt [[], ((tds.get? ei).map Cell.text).getD [], [],
      descText dcell, []] sym = some (pt ++ ['_']) := by
    unfold baseId seedIdx
    rcases hs with h | h | h
    · subst h
      rw [if_pos (by constructor <;> simp)]
      rfl
    · subst h
      rw [if_pos (by constructor <;> simp)]
      rfl
    · rw [if_neg (by simp; omega)]
      rw [if_neg (by omega : ¬sym = -1)]
      rfl
  rw [hbase]

/-- **C9, witness** at a concrete symbol-at-index-2 page row. -/
theorem blank_symbol_empty_seed_witness :
    (processRow 2 0 1
      [⟨("5").toList, [], none, []⟩,
       ⟨[], ("<strong>X</strong>").toList, some (("X").toList), [("X").toList]⟩,
       ⟨[], [], none, []⟩]).map
        (fun row => (row.get? 4, baseId (("NC").toList) row 2)) =
      some (some [], some ((("NC").toList) ++ ['_'])) :=
  blank_symbol_empty_seed 2 0 1
    [⟨("5").toList, [], none, []⟩,
     ⟨[], ("<strong>X</strong>").toList, some (("X").toList), [("X").toList]⟩,
     ⟨[], [], none, []⟩]
    (⟨[], ("<strong>X</strong>").toList, some (("X").toList), [("X").toList]⟩)
    (("NC").toList) (by decide) (by decide) (by decide) (by decide)
    (Or.inr (Or.inl rfl)) (by decide)
